import Mathlib

/-!
Verification of the nickname plugin (`src/main.py`) against its
natural-language specification.

The Python source is shallowly embedded: strings are Lean `String`s
(lists of unicode code points, matching Python indexing), optional or
falsy fields (`rec.get("sid")`) are modelled by the empty string, the
`first_pos` dict is an insertion-ordered association list, and Python's
stable `sorted` is modelled by a stable insertion sort.  `str.lower` is
modelled by `Char.toLower` (ASCII case folding), `str.strip` by
dropping `Char.isWhitespace` characters at both ends, and `str.find` by
a structural first-occurrence substring search returning `Option Nat`
instead of `-1`.
-/

namespace Nickname

/-- Python `str.strip()` on a list of characters. -/
def stripChars (l : List Char) : List Char :=
  ((l.dropWhile Char.isWhitespace).reverse.dropWhile Char.isWhitespace).reverse

/-- Python `str.strip()`; used by `_strip_at` and `_norm_str` in the source. -/
def pyStrip (s : String) : String := ⟨stripChars s.data⟩

/-- Python `str.lower()` (character-wise case folding). -/
def pyLower (s : String) : String := ⟨s.data.map Char.toLower⟩

/-- `_norm_str` in the source: `s.strip()`. -/
def norm_str (s : String) : String := pyStrip s

/-- First index at which `nee` occurs as a contiguous sublist of `hay`
(Python `hay.find(nee)`, with `none` for `-1`). -/
def findSub : List Char → List Char → Option Nat
  | [], nee => if nee.isEmpty then some 0 else none
  | c :: t, nee =>
    if nee.isPrefixOf (c :: t) then some 0 else (findSub t nee).map (· + 1)

/-- Python `hay.find(nee)` on strings. -/
def pyFind (hay nee : String) : Option Nat := findSub hay.data nee.data

/-- Python `nee in hay` substring test. -/
def pyContains (hay nee : String) : Bool := (pyFind hay nee).isSome

/-- Python `s.startswith(p)`. -/
def pyStartsWith (s p : String) : Bool := p.data.isPrefixOf s.data

/-- The normalized text the hook works with: `_strip_at(event).lower()`
(`msg` in `on_group_message`). -/
def msgOf (raw : String) : String := pyLower (pyStrip raw)

/-- One member record of `members.json`:
`{"nickname": [...], "sid": ..., "group_id": ...}`.  A missing or null
`sid`/`group_id` (Python `rec.get(...)` returning a falsy value) is
modelled by `""`, which is exactly what the source's truthiness checks
distinguish. -/
structure MemberRecord where
  nickname : List String
  sid : String
  group_id : String
deriving DecidableEq, Repr

/-- An outgoing message segment (`Comp.At` / `Comp.Plain`). -/
inductive Segment where
  | At (qq : String) : Segment
  | Plain (text : String) : Segment
deriving DecidableEq, Repr

/-- Non-breaking space separator `" "` used between mention segments. -/
def nbsp : String := "\u00A0"

/-- Zero-width marker (U+200B) prepended to the re-emitted text. -/
def zwsp : String := "\u200B"

/-- Broadcast trigger phrases (`triggers` in `on_group_message`). -/
def triggers : List String := ["都来康", "都来看"]

/-- `_find_by_sid_group`: the first record matching both `sid` and
`group_id`, if any. -/
def find_by_sid_group : List MemberRecord → String → String → Option MemberRecord
  | [], _, _ => none
  | r :: rest, sid, gid =>
    if r.sid == sid && r.group_id == gid then some r
    else find_by_sid_group rest sid gid

/-- `_find_all_by_nickname` restricted to a group: every record of the
group containing an entry whose trim equals `nick`. -/
def find_all_by_nickname (members : List MemberRecord) (nick gid : String) :
    List MemberRecord :=
  members.filter (fun r =>
    r.group_id == gid && r.nickname.any (fun x => norm_str x == nick))

/-- The mutation `cmd_member` performs on the record it found: append
the (already trimmed) nickname unless some entry trim-equals it. -/
def upsertRec (r : MemberRecord) (n : String) : MemberRecord :=
  if r.nickname.all (fun x => norm_str x != n) then
    { r with nickname := r.nickname ++ [n] }
  else r

/-- The store mutation of `cmd_member` (`upsertNickname` in the spec): find
the first record with this `sid`/`group_id` and update it in place, or
append a fresh record `{"nickname": [n], "sid": sid, "group_id": gid}`
at the end. -/
def upsertNickname : List MemberRecord → String → String → String → List MemberRecord
  | [], sid, gid, n => [⟨[n], sid, gid⟩]
  | r :: rest, sid, gid, n =>
    if r.sid == sid && r.group_id == gid then upsertRec r n :: rest
    else r :: upsertNickname rest sid gid n

/-- One record's fate under `cmd_rm_nick`: if the record is in the group
and some entry trim-equals `n` (the `_find_all_by_nickname` condition),
the entries trim-equal to `n` are filtered out and the record counts as
touched when the length changed. -/
def rmNickStep (gid n : String) (r : MemberRecord) : MemberRecord × Nat :=
  if r.group_id == gid && r.nickname.any (fun x => norm_str x == n) then
    let newNicks := r.nickname.filter (fun x => norm_str x != n)
    if newNicks.length ≠ r.nickname.length then
      ({ r with nickname := newNicks }, 1)
    else (r, 0)
  else (r, 0)

/-- The store mutation of `cmd_rm_nick` (`removeNickname` in the spec):
the updated store together with the count of touched records. -/
def removeNickname : List MemberRecord → String → String → List MemberRecord × Nat
  | [], _, _ => ([], 0)
  | r :: rest, gid, n =>
    let p := rmNickStep gid n r
    let q := removeNickname rest gid n
    (p.1 :: q.1, p.2 + q.2)

/-- The `first_pos` dict update
`if sid not in first_pos or idx < first_pos[sid]: first_pos[sid] = idx`,
on an insertion-ordered association list. -/
def updatePos : List (String × Nat) → String → Nat → List (String × Nat)
  | [], sid, idx => [(sid, idx)]
  | (s, i) :: t, sid, idx =>
    if s == sid then (s, if idx < i then idx else i) :: t
    else (s, i) :: updatePos t sid idx

/-- The body of the inner nickname loop of `on_group_message` for one
stored nickname: trim it, skip it when empty or absent from `msg`, and
otherwise record its first index. -/
def nickStep (msg sid : String) (fp : List (String × Nat)) (raw : String) :
    List (String × Nat) :=
  if norm_str raw == "" then fp
  else
    match pyFind msg (norm_str raw) with
    | none => fp
    | some idx => updatePos fp sid idx

/-- The inner nickname loop of `on_group_message` over a record's
nickname list. -/
def recPosList (msg sid : String) : List String → List (String × Nat) → List (String × Nat)
  | [], fp => fp
  | raw :: rest, fp => recPosList msg sid rest (nickStep msg sid fp raw)

/-- The inner nickname loop of `on_group_message` for one record. -/
def recPos (msg : String) (rec : MemberRecord) (fp : List (String × Nat)) :
    List (String × Nat) :=
  recPosList msg rec.sid rec.nickname fp

/-- The record scan of `on_group_message` building `first_pos`:
records of other groups and records with a falsy `sid` are skipped. -/
def collectPos (msg gid : String) : List MemberRecord → List (String × Nat) → List (String × Nat)
  | [], fp => fp
  | rec :: rest, fp =>
    collectPos msg gid rest
      (if rec.group_id != gid then fp
       else if rec.sid == "" then fp
       else recPos msg rec fp)

/-- The full `first_pos` computation of `on_group_message`. -/
def collectFirstPos (msg gid : String) (members : List MemberRecord) :
    List (String × Nat) :=
  collectPos msg gid members []

/-- Stable insertion of one `(sid, idx)` pair: the new pair goes after
every element with a strictly smaller index and before all others, so
earlier elements with an equal index stay in front. -/
def insertByIdx (p : String × Nat) : List (String × Nat) → List (String × Nat)
  | [] => [p]
  | q :: t => if q.2 < p.2 then q :: insertByIdx p t else p :: q :: t

/-- Python's stable `sorted(first_pos.items(), key=lambda kv: kv[1])`. -/
def sortByIdx : List (String × Nat) → List (String × Nat)
  | [] => []
  | p :: t => insertByIdx p (sortByIdx t)

/-- The ordered sid list the hook mentions (`order_sids`). -/
def orderSids (msg gid : String) (members : List MemberRecord) : List String :=
  (sortByIdx (collectFirstPos msg gid members)).map Prod.fst

/-- The `At sid, Plain nbsp` pairs the two chain-building loops append. -/
def pairSegs : List String → List Segment
  | [] => []
  | sid :: rest => Segment.At sid :: Segment.Plain nbsp :: pairSegs rest

/-- Python `chain[-1] = s` (both call sites guard against an empty chain). -/
def setLast : List Segment → Segment → List Segment
  | [], _ => []
  | [_], s => [s]
  | x :: y :: t, s => x :: setLast (y :: t) s

/-- The message rewriter: mention/separator pairs with the last
separator replaced by `Plain (zwsp ++ "\n" ++ msg)`. -/
def buildChain (sids : List String) (msg : String) : List Segment :=
  setLast (pairSegs sids) (Segment.Plain (zwsp ++ "\n" ++ msg))

/-- The records the broadcast branch mentions: records of the group with
a truthy `sid`, in store iteration order. -/
def broadcastRecs (gid : String) (members : List MemberRecord) : List MemberRecord :=
  members.filter (fun r => r.group_id == gid && r.sid != "")

/-- `on_group_message`: the full message hook on the extracted plain
text `rawText`, the group id (`""` when absent) and the store snapshot.
`none` means the handler returns without yielding a message. -/
def on_group_message (rawText gid : String) (members : List MemberRecord) :
    Option (List Segment) :=
  let msg := msgOf rawText
  if pyStartsWith msg "/" then none
  else if gid == "" then none
  else if triggers.any (fun t => pyContains msg t) then
    let sids := (broadcastRecs gid members).map (fun r => r.sid)
    if sids.isEmpty then none else some (buildChain sids msg)
  else
    let fp := collectFirstPos msg gid members
    if fp.isEmpty then none
    else some (buildChain ((sortByIdx fp).map Prod.fst) msg)

/-- The sids mentioned by a chain, in order. -/
def chainSids (ch : List Segment) : List String :=
  ch.filterMap (fun s => match s with | Segment.At q => some q | _ => none)

/-- `c` is an ASCII uppercase letter. -/
def isUpperASCII (c : Char) : Prop := 65 ≤ c.toNat ∧ c.toNat ≤ 90

instance (c : Char) : Decidable (isUpperASCII c) := by
  unfold isUpperASCII; infer_instance

/-! ### Lemmas about the stable sort -/

theorem insertByIdx_perm (p : String × Nat) (l : List (String × Nat)) :
    List.Perm (insertByIdx p l) (p :: l) := by
  induction l with
  | nil => exact List.Perm.refl _
  | cons q t ih =>
    by_cases h : q.2 < p.2
    · simp only [insertByIdx, if_pos h]
      exact (ih.cons q).trans (List.Perm.swap p q t)
    · simp only [insertByIdx, if_neg h]
      exact List.Perm.refl _

theorem sortByIdx_perm (l : List (String × Nat)) : List.Perm (sortByIdx l) l := by
  induction l with
  | nil => exact List.Perm.refl _
  | cons p t ih => exact (insertByIdx_perm p (sortByIdx t)).trans (ih.cons p)

theorem sorted_insertByIdx (p : String × Nat) (l : List (String × Nat))
    (h : List.Sorted (fun a b : String × Nat => a.2 ≤ b.2) l) :
    List.Sorted (fun a b : String × Nat => a.2 ≤ b.2) (insertByIdx p l) := by
  induction l with
  | nil => simp [insertByIdx]
  | cons q t ih =>
    rcases List.sorted_cons.mp h with ⟨hq, ht⟩
    by_cases hlt : q.2 < p.2
    · simp only [insertByIdx, if_pos hlt]
      refine List.sorted_cons.mpr ⟨?_, ih ht⟩
      intro x hx
      rcases List.mem_cons.mp ((insertByIdx_perm p t).mem_iff.mp hx) with hxp | hxt
      · exact hxp ▸ le_of_lt hlt
      · exact hq x hxt
    · simp only [insertByIdx, if_neg hlt]
      refine List.sorted_cons.mpr ⟨?_, h⟩
      intro x hx
      rcases List.mem_cons.mp hx with hxq | hxt
      · exact hxq ▸ le_of_not_lt hlt
      · exact le_trans (le_of_not_lt hlt) (hq x hxt)

theorem sorted_sortByIdx (l : List (String × Nat)) :
    List.Sorted (fun a b : String × Nat => a.2 ≤ b.2) (sortByIdx l) := by
  induction l with
  | nil => simp [sortByIdx]
  | cons p t ih => exact sorted_insertByIdx p (sortByIdx t) ih

theorem filter_insertByIdx (p : String × Nat) (l : List (String × Nat)) (n : Nat) :
    (insertByIdx p l).filter (fun q => q.2 == n) =
      if p.2 = n then p :: l.filter (fun q => q.2 == n)
      else l.filter (fun q => q.2 == n) := by
  induction l with
  | nil =>
    by_cases hp : p.2 = n <;> simp [insertByIdx, List.filter_cons, hp]
  | cons q t ih =>
    by_cases hlt : q.2 < p.2
    · simp only [insertByIdx, if_pos hlt, List.filter_cons, ih]
      by_cases hq : q.2 = n
      · have hp : ¬p.2 = n := by omega
        simp [hq, hp]
      · simp [hq]
    · simp only [insertByIdx, if_neg hlt, List.filter_cons]
      by_cases hp : p.2 = n <;> simp [hp]

theorem filter_sortByIdx (l : List (String × Nat)) (n : Nat) :
    (sortByIdx l).filter (fun q => q.2 == n) = l.filter (fun q => q.2 == n) := by
  induction l with
  | nil => rfl
  | cons p t ih =>
    simp only [sortByIdx, filter_insertByIdx, List.filter_cons, ih]
    by_cases hp : p.2 = n <;> simp [hp]

/-! ### Lemmas about the rewriter chain -/

theorem setLast_cons_cons (x y : Segment) (t : List Segment) (s : Segment) :
    setLast (x :: y :: t) s = x :: setLast (y :: t) s := rfl

theorem chainSids_buildChain (sids : List String) (msg : String) :
    chainSids (buildChain sids msg) = sids := by
  unfold buildChain
  induction sids with
  | nil => rfl
  | cons sid rest ih =>
    cases rest with
    | nil => simp [pairSegs, setLast, chainSids]
    | cons r rs =>
      simp only [pairSegs, setLast_cons_cons, chainSids, List.filterMap_cons] at *
      simpa using ih

theorem pairSegs_ne_nil {sids : List String} (h : sids ≠ []) : pairSegs sids ≠ [] := by
  cases sids with
  | nil => exact absurd rfl h
  | cons a t => simp [pairSegs]

theorem getLast?_setLast (l : List Segment) (s : Segment) (h : l ≠ []) :
    (setLast l s).getLast? = some s := by
  induction l with
  | nil => exact absurd rfl h
  | cons x t ih =>
    cases t with
    | nil => rfl
    | cons y u =>
      rw [setLast_cons_cons]
      have step : ∀ (a : Segment) (l : List Segment), l ≠ [] →
          (a :: l).getLast? = l.getLast? := by
        intro a l hl
        cases l with
        | nil => exact absurd rfl hl
        | cons b m => rfl
      have hne : setLast (y :: u) s ≠ [] := by
        cases u <;> simp [setLast]
      rw [step x _ hne]
      exact ih (by simp)

theorem getLast?_buildChain (sids : List String) (msg : String) (h : sids ≠ []) :
    (buildChain sids msg).getLast? = some (Segment.Plain (zwsp ++ "\n" ++ msg)) :=
  getLast?_setLast _ _ (pairSegs_ne_nil h)

/-! ### Lemmas about the keys of `first_pos` -/

theorem mem_keys_updatePos (fp : List (String × Nat)) (sid s : String) (idx : Nat) :
    s ∈ (updatePos fp sid idx).map Prod.fst ↔ s ∈ fp.map Prod.fst ∨ s = sid := by
  induction fp with
  | nil => simp [updatePos]
  | cons q t ih =>
    by_cases h : q.1 = sid
    · simp only [updatePos, h, beq_self_eq_true, if_true, List.map_cons, List.mem_cons]
      tauto
    · have hb : (q.1 == sid) = false := by simp [h]
      simp only [updatePos, hb, Bool.false_eq_true, if_false, List.map_cons,
        List.mem_cons, ih]
      tauto

theorem nodup_keys_updatePos (fp : List (String × Nat)) (sid : String) (idx : Nat)
    (h : (fp.map Prod.fst).Nodup) : ((updatePos fp sid idx).map Prod.fst).Nodup := by
  induction fp with
  | nil => simp [updatePos]
  | cons q t ih =>
    rcases List.nodup_cons.mp h with ⟨hq, ht⟩
    by_cases hqs : q.1 = sid
    · simp only [updatePos, hqs, beq_self_eq_true, if_true, List.map_cons]
      exact List.nodup_cons.mpr ⟨hqs ▸ hq, ht⟩
    · have hb : (q.1 == sid) = false := by simp [hqs]
      simp only [updatePos, hb, Bool.false_eq_true, if_false, List.map_cons]
      refine List.nodup_cons.mpr ⟨?_, ih ht⟩
      intro hmem
      rcases (mem_keys_updatePos t sid q.1 idx).mp hmem with h1 | h2
      · exact hq h1
      · exact hqs h2

theorem mem_keys_nickStep (msg sid : String) (fp : List (String × Nat)) (raw s : String)
    (h : s ∈ (nickStep msg sid fp raw).map Prod.fst) :
    s ∈ fp.map Prod.fst ∨ s = sid := by
  unfold nickStep at h
  split at h
  · exact Or.inl h
  · split at h
    · exact Or.inl h
    · exact (mem_keys_updatePos fp sid s _).mp h

theorem nodup_keys_nickStep (msg sid : String) (fp : List (String × Nat)) (raw : String)
    (h : (fp.map Prod.fst).Nodup) : ((nickStep msg sid fp raw).map Prod.fst).Nodup := by
  unfold nickStep
  split
  · exact h
  · split
    · exact h
    · exact nodup_keys_updatePos fp sid _ h

theorem mem_keys_recPosList (msg sid : String) (nicks : List String)
    (fp : List (String × Nat)) (s : String)
    (h : s ∈ (recPosList msg sid nicks fp).map Prod.fst) :
    s ∈ fp.map Prod.fst ∨ s = sid := by
  induction nicks generalizing fp with
  | nil => exact Or.inl h
  | cons raw rest ih =>
    rcases ih (nickStep msg sid fp raw) h with h1 | h2
    · exact mem_keys_nickStep msg sid fp raw s h1
    · exact Or.inr h2

theorem nodup_keys_recPosList (msg sid : String) (nicks : List String)
    (fp : List (String × Nat)) (h : (fp.map Prod.fst).Nodup) :
    ((recPosList msg sid nicks fp).map Prod.fst).Nodup := by
  induction nicks generalizing fp with
  | nil => exact h
  | cons raw rest ih => exact ih _ (nodup_keys_nickStep msg sid fp raw h)

theorem keys_collectPos_ne (msg gid : String) (ms : List MemberRecord)
    (fp : List (String × Nat)) (hfp : ∀ s ∈ fp.map Prod.fst, s ≠ "") :
    ∀ s ∈ (collectPos msg gid ms fp).map Prod.fst, s ≠ "" := by
  induction ms generalizing fp with
  | nil => exact hfp
  | cons r rest ih =>
    simp only [collectPos]
    split
    · exact ih fp hfp
    · split
      · exact ih fp hfp
      · refine ih _ ?_
        intro s hs
        rcases mem_keys_recPosList msg r.sid r.nickname fp s hs with h1 | h2
        · exact hfp s h1
        · subst h2
          rename_i hsid
          intro hempty
          exact hsid (by simp [hempty])

theorem nodup_keys_collectPos (msg gid : String) (ms : List MemberRecord)
    (fp : List (String × Nat)) (h : (fp.map Prod.fst).Nodup) :
    ((collectPos msg gid ms fp).map Prod.fst).Nodup := by
  induction ms generalizing fp with
  | nil => exact h
  | cons r rest ih =>
    simp only [collectPos]
    split
    · exact ih fp h
    · split
      · exact ih fp h
      · exact ih _ (nodup_keys_recPosList msg r.sid r.nickname fp h)

theorem keys_collectFirstPos_ne (msg gid : String) (ms : List MemberRecord) :
    ∀ s ∈ (collectFirstPos msg gid ms).map Prod.fst, s ≠ "" :=
  keys_collectPos_ne msg gid ms [] (by simp)

theorem nodup_keys_collectFirstPos (msg gid : String) (ms : List MemberRecord) :
    ((collectFirstPos msg gid ms).map Prod.fst).Nodup :=
  nodup_keys_collectPos msg gid ms [] (by simp)

theorem nodup_orderSids (msg gid : String) (ms : List MemberRecord) :
    (orderSids msg gid ms).Nodup := by
  have hperm : List.Perm ((sortByIdx (collectFirstPos msg gid ms)).map Prod.fst)
      ((collectFirstPos msg gid ms).map Prod.fst) :=
    (sortByIdx_perm (collectFirstPos msg gid ms)).map Prod.fst
  exact hperm.nodup_iff.mpr (nodup_keys_collectFirstPos msg gid ms)

/-! ### The lookup only reads the records of the message's group -/

theorem collectPos_filter_group (msg gid : String) (ms : List MemberRecord)
    (fp : List (String × Nat)) :
    collectPos msg gid ms fp =
      collectPos msg gid (ms.filter (fun r => r.group_id == gid)) fp := by
  induction ms generalizing fp with
  | nil => rfl
  | cons r rest ih =>
    cases hb : (r.group_id == gid)
    · have hb2 : (r.group_id != gid) = true := by simp [bne, hb]
      simp only [collectPos, hb2, if_true, List.filter_cons, hb, Bool.false_eq_true,
        if_false]
      exact ih fp
    · have hb2 : (r.group_id != gid) = false := by simp [bne, hb]
      simp only [collectPos, hb2, Bool.false_eq_true, if_false, List.filter_cons, hb,
        if_true]
      split
      · exact ih fp
      · exact ih _

theorem broadcastRecs_filter_group (gid : String) (ms : List MemberRecord) :
    broadcastRecs gid ms =
      (ms.filter (fun r => r.group_id == gid)).filter (fun r => r.sid != "") := by
  unfold broadcastRecs
  induction ms with
  | nil => rfl
  | cons r rest ih =>
    cases hb : (r.group_id == gid) <;> cases hs : (r.sid != "") <;>
      simp [List.filter_cons, hb, hs, ih]

/-! ### Nicknames trimming to empty are skipped -/

theorem recPosList_filter_empty (msg sid : String) (nicks : List String)
    (fp : List (String × Nat)) :
    recPosList msg sid (nicks.filter (fun x => norm_str x != "")) fp
      = recPosList msg sid nicks fp := by
  induction nicks generalizing fp with
  | nil => rfl
  | cons raw rest ih =>
    cases hb : (norm_str raw == "")
    · have hk : (norm_str raw != "") = true := by simp [bne, hb]
      simp only [List.filter_cons, hk, if_true, recPosList]
      exact ih _
    · have hk : (norm_str raw != "") = false := by simp [bne, hb]
      have hstep : nickStep msg sid fp raw = fp := by
        unfold nickStep
        simp [hb]
      simp only [List.filter_cons, hk, Bool.false_eq_true, if_false, recPosList, hstep]
      exact ih fp

theorem recPos_filter_empty (msg : String) (r : MemberRecord)
    (fp : List (String × Nat)) :
    recPos msg { r with nickname := r.nickname.filter (fun x => norm_str x != "") } fp
      = recPos msg r fp :=
  recPosList_filter_empty msg r.sid r.nickname fp

theorem collectPos_filter_empty (msg gid : String) (ms : List MemberRecord)
    (fp : List (String × Nat)) :
    collectPos msg gid
      (ms.map (fun r =>
        { r with nickname := r.nickname.filter (fun x => norm_str x != "") })) fp
      = collectPos msg gid ms fp := by
  induction ms generalizing fp with
  | nil => rfl
  | cons r rest ih =>
    simp only [List.map_cons, collectPos]
    rw [ih]
    congr 1
    simp only [recPos_filter_empty]

/-! ### The broadcast branch never reads nickname lists -/

theorem broadcastRecs_map_nicks (gid : String) (ms : List MemberRecord)
    (f : MemberRecord → List String) :
    (broadcastRecs gid (ms.map (fun r => { r with nickname := f r }))).map
        (fun r => r.sid)
      = (broadcastRecs gid ms).map (fun r => r.sid) := by
  unfold broadcastRecs
  induction ms with
  | nil => rfl
  | cons r rest ih =>
    cases hb : (r.group_id == gid && r.sid != "") <;>
      simp [List.filter_cons, hb, ih]

/-! ### Lowercasing preserves a leading slash -/

theorem pyStartsWith_lower_slash (s : String) (h : pyStartsWith s "/" = true) :
    pyStartsWith (pyLower s) "/" = true := by
  unfold pyStartsWith at h ⊢
  unfold pyLower
  cases hsd : s.data with
  | nil => rw [hsd] at h; simp [List.isPrefixOf] at h
  | cons c t =>
    rw [hsd] at h
    have hc : c = '/' := by
      have : (('/' == c) && List.isPrefixOf [] t) = true := h
      simp at this
      exact this.symm
    subst hc
    show List.isPrefixOf ['/'] (List.map Char.toLower ('/' :: t)) = true
    simp [List.isPrefixOf, List.map_cons]

/-! ### An uppercase character survives no search in a lowercased string -/

theorem isPrefixOf_subset (l1 l2 : List Char) (h : l1.isPrefixOf l2 = true) :
    ∀ c ∈ l1, c ∈ l2 := by
  induction l1 generalizing l2 with
  | nil =>
    intro c hc
    simp at hc
  | cons a t ih =>
    cases l2 with
    | nil => simp at h
    | cons b u =>
      intro c hc
      rw [List.isPrefixOf_cons₂] at h
      rcases Bool.and_eq_true_iff.mp h with ⟨hab, hrest⟩
      rcases List.mem_cons.mp hc with rfl | hct
      · rw [beq_iff_eq.mp hab]
        exact List.mem_cons_self b u
      · exact List.mem_cons_of_mem b (ih u hrest c hct)

theorem findSub_mem (hay nee : List Char) (i : Nat) (h : findSub hay nee = some i) :
    ∀ c ∈ nee, c ∈ hay := by
  induction hay generalizing i with
  | nil =>
    intro c hc
    unfold findSub at h
    split at h
    · rename_i hemp
      rw [List.isEmpty_iff] at hemp
      subst hemp
      simp at hc
    · exact absurd h (by simp)
  | cons a t ih =>
    intro c hc
    unfold findSub at h
    split at h
    · rename_i hpre
      exact isPrefixOf_subset _ _ hpre c hc
    · rcases Option.map_eq_some'.mp h with ⟨j, hj, _⟩
      exact List.mem_cons_of_mem a (ih j hj c hc)

theorem toNat_toLower_of_upper (c : Char) (h : 65 ≤ c.toNat ∧ c.toNat ≤ 90) :
    (Char.toLower c).toNat = c.toNat + 32 := by
  unfold Char.toLower
  rw [if_pos ⟨h.1, h.2⟩]
  unfold Char.ofNat
  rw [dif_pos (Or.inl (by omega))]
  rfl

theorem not_upper_toLower (c : Char) : ¬ isUpperASCII (Char.toLower c) := by
  by_cases h : 65 ≤ c.toNat ∧ c.toNat ≤ 90
  · intro hu
    unfold isUpperASCII at hu
    rw [toNat_toLower_of_upper c h] at hu
    omega
  · have heq : Char.toLower c = c := by
      unfold Char.toLower
      rw [if_neg (fun hc => h ⟨hc.1, hc.2⟩)]
    rw [heq]
    exact fun hu => h ⟨hu.1, hu.2⟩

theorem not_upper_mem_pyLower (s : String) (c : Char) (hc : c ∈ (pyLower s).data) :
    ¬ isUpperASCII c := by
  unfold pyLower at hc
  rcases List.mem_map.mp hc with ⟨c0, _, rfl⟩
  exact not_upper_toLower c0

theorem pyFind_lower_none (s nee : String)
    (hup : ∃ c ∈ nee.data, isUpperASCII c) :
    pyFind (pyLower s) nee = none := by
  rcases hup with ⟨c, hc, hcu⟩
  cases hfind : pyFind (pyLower s) nee with
  | none => rfl
  | some i =>
    unfold pyFind at hfind
    exact absurd hcu (not_upper_mem_pyLower s c (findSub_mem _ _ i hfind c hc))

theorem nickStep_upper (raw0 sid : String) (fp : List (String × Nat)) (raw : String)
    (hup : ∃ c ∈ (norm_str raw).data, isUpperASCII c) :
    nickStep (msgOf raw0) sid fp raw = fp := by
  have hne : (norm_str raw == "") = false := by
    rcases hup with ⟨c, hc, _⟩
    by_cases h : norm_str raw = ""
    · rw [h] at hc
      simp at hc
    · simp [h]
  unfold nickStep
  rw [hne]
  have : pyFind (msgOf raw0) (norm_str raw) = none :=
    pyFind_lower_none (pyStrip raw0) (norm_str raw) hup
  simp [this]

theorem recPosList_upper (raw0 sid : String) (nicks : List String)
    (fp : List (String × Nat))
    (hup : ∀ x ∈ nicks, ∃ c ∈ (norm_str x).data, isUpperASCII c) :
    recPosList (msgOf raw0) sid nicks fp = fp := by
  induction nicks generalizing fp with
  | nil => rfl
  | cons raw rest ih =>
    unfold recPosList
    rw [nickStep_upper raw0 sid fp raw (hup raw (List.mem_cons_self raw rest))]
    exact ih fp (fun x hx => hup x (List.mem_cons_of_mem raw hx))

theorem collectFirstPos_upper (raw0 gid : String) (ms : List MemberRecord)
    (hup : ∀ r ∈ ms, ∀ x ∈ r.nickname, ∃ c ∈ (norm_str x).data, isUpperASCII c) :
    collectFirstPos (msgOf raw0) gid ms = [] := by
  unfold collectFirstPos
  suffices h : ∀ fp, collectPos (msgOf raw0) gid ms fp = fp from h []
  intro fp
  induction ms generalizing fp with
  | nil => rfl
  | cons r rest ih =>
    unfold collectPos
    have hr : recPos (msgOf raw0) r fp = fp :=
      recPosList_upper raw0 r.sid r.nickname fp
        (fun x hx => hup r (List.mem_cons_self r rest) x hx)
    split
    · exact ih (fun r' h' x hx => hup r' (List.mem_cons_of_mem r h') x hx) fp
    · split
      · exact ih (fun r' h' x hx => hup r' (List.mem_cons_of_mem r h') x hx) fp
      · rw [hr]
        exact ih (fun r' h' x hx => hup r' (List.mem_cons_of_mem r h') x hx) fp

/-! ### Lemmas about `upsertNickname` -/

theorem upsertRec_sid (r : MemberRecord) (n : String) : (upsertRec r n).sid = r.sid := by
  unfold upsertRec
  split <;> rfl

theorem upsertRec_gid (r : MemberRecord) (n : String) :
    (upsertRec r n).group_id = r.group_id := by
  unfold upsertRec
  split <;> rfl

theorem find_upsert (members : List MemberRecord) (sid gid n : String) :
    find_by_sid_group (upsertNickname members sid gid n) sid gid =
      some (match find_by_sid_group members sid gid with
            | none => ⟨[n], sid, gid⟩
            | some r => upsertRec r n) := by
  induction members with
  | nil => simp [upsertNickname, find_by_sid_group]
  | cons r rest ih =>
    cases hb : (r.sid == sid && r.group_id == gid)
    · simp only [upsertNickname, hb, Bool.false_eq_true, if_false, find_by_sid_group]
      rw [ih]
    · simp only [upsertNickname, hb, if_true, find_by_sid_group]
      have hcond : ((upsertRec r n).sid == sid && (upsertRec r n).group_id == gid)
          = true := by
        rw [upsertRec_sid, upsertRec_gid]
        exact hb
      simp [find_by_sid_group, hcond]

theorem countP_upsertRec_zero (r : MemberRecord) (n : String) (hn : norm_str n = n)
    (h0 : r.nickname.countP (fun x => norm_str x == n) = 0) :
    (upsertRec r n).nickname.countP (fun x => norm_str x == n) = 1 := by
  have hall : r.nickname.all (fun x => norm_str x != n) = true := by
    rw [List.all_eq_true]
    intro x hx
    have hnx := List.countP_eq_zero.mp h0 x hx
    simp only [bne]
    simp only [Bool.not_eq_true'] at hnx ⊢
    simp [hnx]
  unfold upsertRec
  rw [if_pos hall]
  simp [List.countP_append, h0, List.countP_cons, hn]

theorem upsertRec_of_present (r : MemberRecord) (n : String)
    (h : 0 < r.nickname.countP (fun x => norm_str x == n)) : upsertRec r n = r := by
  unfold upsertRec
  rw [if_neg]
  intro hall
  rcases List.countP_pos_iff.mp h with ⟨x, hx, hpx⟩
  have := List.all_eq_true.mp hall x hx
  simp [bne] at this
  simp [this] at hpx

/-! ## The claims -/

/-- C1 (counterexample): the hook does NOT re-emit the original message
text character-for-character.  For the message `"Cat"` (plain text
`"Cat"`) and a record with nickname `"cat"`, the final segment carries
the lowercased text `"cat"`, not the original `"Cat"`. -/
theorem C1_counterexample :
    on_group_message "Cat" "g" [⟨["cat"], "1", "g"⟩]
        = some [Segment.At "1", Segment.Plain (zwsp ++ "\n" ++ "cat")] ∧
      Segment.Plain (zwsp ++ "\n" ++ "cat") ≠ Segment.Plain (zwsp ++ "\n" ++ "Cat") := by
  constructor
  · decide
  · decide

/-- C1 (amended): for every rewritten message, the final segment of the
output sequence is a text segment consisting of the zero-width marker
(U+200B), a newline, and the case-folded (lowercased) stripped message
text `msgOf raw` — the original text is preserved only up to
lowercasing and whitespace trimming. -/
theorem C1_last_segment_lowered (raw gid : String) (members : List MemberRecord)
    (ch : List Segment) (h : on_group_message raw gid members = some ch) :
    ch.getLast? = some (Segment.Plain (zwsp ++ "\n" ++ msgOf raw)) := by
  simp only [on_group_message] at h
  split at h
  · simp at h
  split at h
  · simp at h
  split at h
  · split at h
    · simp at h
    · rename_i hne
      rw [← Option.some.inj h]
      refine getLast?_buildChain _ _ ?_
      intro hnil
      apply hne
      simp [hnil]
  · split at h
    · simp at h
    · rename_i hne
      rw [← Option.some.inj h]
      refine getLast?_buildChain _ _ ?_
      intro hnil
      apply hne
      have hlen := congrArg List.length hnil
      simp only [List.length_map, List.length_nil] at hlen
      rw [(sortByIdx_perm _).length_eq] at hlen
      simp [List.isEmpty_iff, List.length_eq_zero.mp hlen]

/-- C1 witness: the amended theorem applied at a concrete input. -/
theorem C1_witness :
    List.getLast? [Segment.At "1", Segment.Plain (zwsp ++ "\n" ++ "cat")]
      = some (Segment.Plain (zwsp ++ "\n" ++ msgOf "Cat")) :=
  C1_last_segment_lowered "Cat" "g" [⟨["cat"], "1", "g"⟩]
    [Segment.At "1", Segment.Plain (zwsp ++ "\n" ++ "cat")] (by decide)

/-- C2 (counterexample): the engine does NOT search for the case-folded
nickname.  With the single stored nickname `"Cat"` and the message
`"xCat"`, the case-folded nickname occurs in the case-folded message at
index 1, yet the hook finds no match at all and emits nothing. -/
theorem C2_counterexample :
    on_group_message "xCat" "g" [⟨["Cat"], "1", "g"⟩] = none ∧
      pyFind (msgOf "xCat") (pyLower (norm_str "Cat")) = some 1 := by
  constructor
  · decide
  · decide

/-- C2 (amended): the engine searches for the trimmed nickname without
case folding it, inside the lowercased message; consequently a stored
nickname whose trimmed form contains an ASCII uppercase letter never
matches any message (when no broadcast trigger fires, the hook emits
nothing for a store whose nicknames all contain an uppercase letter). -/
theorem C2_uppercase_nickname_never_matches (raw gid : String)
    (members : List MemberRecord)
    (hup : ∀ r ∈ members, ∀ x ∈ r.nickname, ∃ c ∈ (norm_str x).data, isUpperASCII c)
    (htrig : triggers.any (fun t => pyContains (msgOf raw) t) = false) :
    on_group_message raw gid members = none := by
  simp only [on_group_message]
  split
  · rfl
  split
  · rfl
  rw [htrig]
  simp [collectFirstPos_upper raw gid members hup]

/-- C2 witness: the amended theorem applied at a concrete input. -/
theorem C2_witness : on_group_message "xCat" "g" [⟨["Cat"], "1", "g"⟩] = none :=
  C2_uppercase_nickname_never_matches "xCat" "g" [⟨["Cat"], "1", "g"⟩]
    (by decide) (by decide)

/-- C3: when no trigger fires, the group is set, the text is not a
command and at least one nickname matches, the hook emits the rewritten
chain over `orderSids`, which lists the distinct matched sids (exactly
the keys of `first_pos`, distinct), sorted ascending by their minimum
first-occurrence index, stably: entries with equal index keep the store
iteration order in which they entered `first_pos`. -/
theorem C3_first_occurrence_order (raw gid : String) (members : List MemberRecord)
    (hcmd : pyStartsWith (msgOf raw) "/" = false)
    (hgid : gid ≠ "")
    (htrig : triggers.any (fun t => pyContains (msgOf raw) t) = false)
    (hfp : collectFirstPos (msgOf raw) gid members ≠ []) :
    on_group_message raw gid members
        = some (buildChain (orderSids (msgOf raw) gid members) (msgOf raw)) ∧
      (orderSids (msgOf raw) gid members).Nodup ∧
      List.Perm (orderSids (msgOf raw) gid members)
        ((collectFirstPos (msgOf raw) gid members).map Prod.fst) ∧
      List.Sorted (fun p q : String × Nat => p.2 ≤ q.2)
        (sortByIdx (collectFirstPos (msgOf raw) gid members)) ∧
      ∀ i : Nat,
        (sortByIdx (collectFirstPos (msgOf raw) gid members)).filter
            (fun q => q.2 == i)
          = (collectFirstPos (msgOf raw) gid members).filter (fun q => q.2 == i) := by
  refine ⟨?_, nodup_orderSids _ _ _, (sortByIdx_perm _).map Prod.fst,
    sorted_sortByIdx _, fun i => filter_sortByIdx _ i⟩
  have hg : (gid == "") = false := by simp [hgid]
  have hfpe : (collectFirstPos (msgOf raw) gid members).isEmpty = false := by
    simp [List.isEmpty_iff, hfp]
  simp only [on_group_message, hcmd, hg, htrig, Bool.false_eq_true, if_false, hfpe,
    orderSids]

/-- C3 witness: the theorem at the spec's own example — A has nickname
"cat", B has nickname "dog", and "the dog chased the cat" mentions B
before A. -/
theorem C3_witness :
    (on_group_message "the dog chased the cat" "G"
          [⟨["cat"], "A", "G"⟩, ⟨["dog"], "B", "G"⟩]
        = some (buildChain
            (orderSids (msgOf "the dog chased the cat") "G"
              [⟨["cat"], "A", "G"⟩, ⟨["dog"], "B", "G"⟩])
            (msgOf "the dog chased the cat"))) ∧
      orderSids (msgOf "the dog chased the cat") "G"
          [⟨["cat"], "A", "G"⟩, ⟨["dog"], "B", "G"⟩] = ["B", "A"] :=
  ⟨(C3_first_occurrence_order "the dog chased the cat" "G"
      [⟨["cat"], "A", "G"⟩, ⟨["dog"], "B", "G"⟩]
      (by decide) (by decide) (by decide) (by decide)).1, by decide⟩

/-- C4: when the (non-command, group-scoped) message contains a
broadcast trigger, the hook short-circuits: its output is independent of
every nickname list, it emits nothing when the group has no record with
a non-empty sid, and otherwise the mentioned sids are exactly the
records of the group with a non-empty sid, in store iteration order. -/
theorem C4_broadcast_short_circuit (raw gid : String) (members : List MemberRecord)
    (hcmd : pyStartsWith (msgOf raw) "/" = false)
    (hgid : gid ≠ "")
    (htrig : triggers.any (fun t => pyContains (msgOf raw) t) = true) :
    (∀ f : MemberRecord → List String,
        on_group_message raw gid (members.map (fun r => { r with nickname := f r }))
          = on_group_message raw gid members) ∧
      ((broadcastRecs gid members).map (fun r => r.sid) = [] →
        on_group_message raw gid members = none) ∧
      (∀ ch, on_group_message raw gid members = some ch →
        chainSids ch = (broadcastRecs gid members).map (fun r => r.sid)) := by
  have hg : (gid == "") = false := by simp [hgid]
  refine ⟨?_, ?_, ?_⟩
  · intro f
    simp only [on_group_message, hcmd, hg, htrig, Bool.false_eq_true, if_false,
      if_true, broadcastRecs_map_nicks]
  · intro hnil
    simp [on_group_message, hcmd, hg, htrig, hnil]
  · intro ch h
    simp only [on_group_message, hcmd, hg, htrig, Bool.false_eq_true, if_false,
      if_true] at h
    split at h
    · simp at h
    · rw [← Option.some.inj h, chainSids_buildChain]

/-- C4 witness: the theorem at the spec's own example — message
"都来康" with three members of group G in store order. -/
theorem C4_witness :
    chainSids [Segment.At "A", Segment.Plain nbsp, Segment.At "B", Segment.Plain nbsp,
        Segment.At "C", Segment.Plain (zwsp ++ "\n" ++ "都来康")]
      = (broadcastRecs "G"
          [⟨["a"], "A", "G"⟩, ⟨["b"], "B", "G"⟩, ⟨["c"], "C", "G"⟩]).map
          (fun r => r.sid) :=
  (C4_broadcast_short_circuit "都来康" "G"
    [⟨["a"], "A", "G"⟩, ⟨["b"], "B", "G"⟩, ⟨["c"], "C", "G"⟩]
    (by decide) (by decide) (by decide)).2.2
    [Segment.At "A", Segment.Plain nbsp, Segment.At "B", Segment.Plain nbsp,
      Segment.At "C", Segment.Plain (zwsp ++ "\n" ++ "都来康")] (by decide)

/-- Helper: `_find_by_sid_group` only returns records of the store. -/
theorem find_by_sid_group_mem (members : List MemberRecord) (sid gid : String)
    (r : MemberRecord) (h : find_by_sid_group members sid gid = some r) :
    r ∈ members := by
  induction members with
  | nil => simp [find_by_sid_group] at h
  | cons q rest ih =>
    unfold find_by_sid_group at h
    split at h
    · exact List.mem_cons.mpr (Or.inl (Option.some.inj h).symm)
    · exact List.mem_cons_of_mem q (ih h)

/-- C5: `upsertNickname` is idempotent per (sid, group, nickname): for a
trimmed non-empty nickname, after upserting the same value twice,
`find_by_sid_group` returns a record in which the nickname occurs
(trim-equal, case-sensitively) exactly once — provided it was not
already duplicated in the store. -/
theorem C5_upsert_idempotent (members : List MemberRecord) (sid gid n : String)
    (hn : norm_str n = n) (_hne : n ≠ "")
    (hdup : ∀ r ∈ members, r.nickname.countP (fun x => norm_str x == n) ≤ 1) :
    (find_by_sid_group (upsertNickname (upsertNickname members sid gid n) sid gid n)
        sid gid).map (fun r => r.nickname.countP (fun x => norm_str x == n))
      = some 1 := by
  cases h0 : find_by_sid_group members sid gid with
  | none =>
    have h1 : find_by_sid_group (upsertNickname members sid gid n) sid gid
        = some ⟨[n], sid, gid⟩ := by rw [find_upsert, h0]
    have hcnt : (⟨[n], sid, gid⟩ : MemberRecord).nickname.countP
        (fun x => norm_str x == n) = 1 := by
      simp [List.countP_cons, hn]
    have h2 : find_by_sid_group
        (upsertNickname (upsertNickname members sid gid n) sid gid n) sid gid
        = some (upsertRec ⟨[n], sid, gid⟩ n) := by rw [find_upsert, h1]
    rw [upsertRec_of_present _ _ (by rw [hcnt]; omega)] at h2
    rw [h2, Option.map_some']
    rw [hcnt]
  | some r =>
    have hle := hdup r (find_by_sid_group_mem members sid gid r h0)
    cases hc0 : r.nickname.countP (fun x => norm_str x == n) with
    | zero =>
      have hcnt1 := countP_upsertRec_zero r n hn hc0
      have h1 : find_by_sid_group (upsertNickname members sid gid n) sid gid
          = some (upsertRec r n) := by rw [find_upsert, h0]
      have h2 : find_by_sid_group
          (upsertNickname (upsertNickname members sid gid n) sid gid n) sid gid
          = some (upsertRec (upsertRec r n) n) := by rw [find_upsert, h1]
      rw [upsertRec_of_present _ _ (by rw [hcnt1]; omega)] at h2
      rw [h2, Option.map_some', hcnt1]
    | succ k =>
      have hk : k = 0 := by
        rw [hc0] at hle
        omega
      have hpos : 0 < r.nickname.countP (fun x => norm_str x == n) := by
        rw [hc0]
        omega
      have hu : upsertRec r n = r := upsertRec_of_present r n hpos
      have h1 : find_by_sid_group (upsertNickname members sid gid n) sid gid
          = some r := by
        rw [find_upsert, h0]
        simp [hu]
      have h2 : find_by_sid_group
          (upsertNickname (upsertNickname members sid gid n) sid gid n) sid gid
          = some r := by
        rw [find_upsert, h1]
        simp [hu]
      rw [h2, Option.map_some', hc0, hk]

/-- C5 witness: upserting "cat" twice for member 1 of group g leaves a
single "cat" entry in that record. -/
theorem C5_witness :
    (find_by_sid_group
        (upsertNickname (upsertNickname [⟨["dog"], "1", "g"⟩] "1" "g" "cat")
          "1" "g" "cat") "1" "g").map
        (fun r => r.nickname.countP (fun x => norm_str x == "cat"))
      = some 1 :=
  C5_upsert_idempotent [⟨["dog"], "1", "g"⟩] "1" "g" "cat"
    (by decide) (by decide) (by decide)

/-- Helper: a list with an entry satisfying the removed-nickname test
strictly shrinks under the removal filter. -/
theorem filter_length_ne (l : List String) (n : String)
    (hx : ∃ x ∈ l, norm_str x = n) :
    (l.filter (fun x => norm_str x != n)).length ≠ l.length := by
  induction l with
  | nil =>
    rcases hx with ⟨x, hmem, _⟩
    simp at hmem
  | cons a t ih =>
    rcases hx with ⟨x, hmem, hxn⟩
    rcases List.mem_cons.mp hmem with rfl | hmem'
    · have ha : (norm_str x != n) = false := by simp [bne, hxn]
      rw [List.filter_cons, ha]
      have := List.length_filter_le (fun x => norm_str x != n) t
      simp only [Bool.false_eq_true, if_false, List.length_cons]
      omega
    · rw [List.filter_cons]
      split
      · simp only [List.length_cons]
        intro hcontra
        exact ih ⟨x, hmem', hxn⟩ (by omega)
      · have := List.length_filter_le (fun x => norm_str x != n) t
        simp only [List.length_cons]
        omega

/-- Helper: what `cmd_rm_nick` does to one record. -/
theorem rmNickStep_spec (gid n : String) (r : MemberRecord) :
    (rmNickStep gid n r).1.sid = r.sid ∧
      (rmNickStep gid n r).1.group_id = r.group_id ∧
      (r.group_id ≠ gid → (rmNickStep gid n r).1 = r) ∧
      (r.group_id = gid → ∀ x ∈ (rmNickStep gid n r).1.nickname, ¬norm_str x = n) ∧
      (rmNickStep gid n r).2
        = (if ((rmNickStep gid n r).1.nickname != r.nickname) = true then 1 else 0) := by
  unfold rmNickStep
  by_cases hcond :
      (r.group_id == gid && r.nickname.any (fun x => norm_str x == n)) = true
  case neg =>
    rw [if_neg hcond]
    refine ⟨rfl, rfl, fun _ => rfl, ?_, by simp⟩
    intro hg x hx hxn
    have hgt : (r.group_id == gid) = true := by simp [hg]
    have hB : r.nickname.any (fun x => norm_str x == n) = false := by
      cases hB : r.nickname.any (fun x => norm_str x == n)
      · rfl
      · exact absurd (by simp [hgt, hB]) hcond
    exact List.any_eq_false.mp hB x hx (by simp [hxn])
  case pos =>
    rw [if_pos hcond]
    by_cases hlen : (r.nickname.filter (fun x => norm_str x != n)).length
        ≠ r.nickname.length
    · rw [if_pos hlen]
      refine ⟨rfl, rfl, ?_, ?_, ?_⟩
      · intro hg
        have := (Bool.and_eq_true_iff.mp hcond).1
        exact absurd (by simpa using this) hg
      · intro _ x hx
        exact bne_iff_ne.mp (List.mem_filter.mp hx).2
      · have hne2 : r.nickname.filter (fun x => norm_str x != n) ≠ r.nickname :=
          fun he => hlen (by rw [he])
        simp [bne_iff_ne.mpr hne2]
    · rw [if_neg hlen]
      refine ⟨rfl, rfl, fun _ => rfl, ?_, by simp⟩
      intro _ x _
      exfalso
      have hany := (Bool.and_eq_true_iff.mp hcond).2
      rcases List.any_eq_true.mp hany with ⟨y, hy, hpy⟩
      exact hlen (filter_length_ne r.nickname n ⟨y, hy, by simpa using hpy⟩)

/-- C6: `removeNickname` removes the trim-equal nickname from every
matching record of the group and reports the number of records whose
nickname list changed, while deleting no record: the result has the
same length, every record keeps its `sid` and `group_id`, records
outside the group are untouched, and records of the group contain no
entry trim-equal to the removed nickname afterwards. -/
theorem C6_remove_nickname_frame (members : List MemberRecord) (gid n : String) :
    (removeNickname members gid n).1.length = members.length ∧
      (∀ p ∈ (removeNickname members gid n).1.zip members,
        p.1.sid = p.2.sid ∧ p.1.group_id = p.2.group_id ∧
          (p.2.group_id ≠ gid → p.1 = p.2) ∧
          (p.2.group_id = gid → ∀ x ∈ p.1.nickname, ¬norm_str x = n)) ∧
      (removeNickname members gid n).2
        = ((removeNickname members gid n).1.zip members).countP
            (fun p => p.1.nickname != p.2.nickname) := by
  induction members with
  | nil => exact ⟨rfl, by simp, rfl⟩
  | cons r rest ih =>
    obtain ⟨ih1, ih2, ih3⟩ := ih
    obtain ⟨hs1, hs2, hs3, hs4, hs5⟩ := rmNickStep_spec gid n r
    refine ⟨?_, ?_, ?_⟩
    · simp [removeNickname, ih1]
    · intro p hp
      simp only [removeNickname, List.zip_cons_cons] at hp
      rcases List.mem_cons.mp hp with rfl | hp'
      · exact ⟨hs1, hs2, hs3, hs4⟩
      · exact ih2 p hp'
    · simp only [removeNickname, List.zip_cons_cons, List.countP_cons, ih3, hs5]
      rcases h : ((rmNickStep gid n r).1.nickname != r.nickname) with _ | _ <;>
        simp [h, Nat.add_comm]

/-- C6 witness: removing "cat" from a two-group store touches exactly
the one matching record of group g and keeps both records. -/
theorem C6_witness :
    (removeNickname [⟨["cat", "dog"], "1", "g"⟩, ⟨["cat"], "2", "h"⟩] "g" "cat").1.length
        = 2 ∧
      (removeNickname [⟨["cat", "dog"], "1", "g"⟩, ⟨["cat"], "2", "h"⟩] "g" "cat").2
        = 1 :=
  ⟨(C6_remove_nickname_frame [⟨["cat", "dog"], "1", "g"⟩, ⟨["cat"], "2", "h"⟩]
      "g" "cat").1, by decide⟩

/-- C7: cross-group noninterference — the hook's output for a message in
group `gid` is identical between any two store snapshots that agree on
the records whose `group_id` is `gid`; records of other groups never
influence the result. -/
theorem C7_cross_group_noninterference (raw gid : String)
    (s1 s2 : List MemberRecord)
    (h : s1.filter (fun r => r.group_id == gid)
        = s2.filter (fun r => r.group_id == gid)) :
    on_group_message raw gid s1 = on_group_message raw gid s2 := by
  have hb : broadcastRecs gid s1 = broadcastRecs gid s2 := by
    rw [broadcastRecs_filter_group, broadcastRecs_filter_group, h]
  have hc : collectFirstPos (msgOf raw) gid s1 = collectFirstPos (msgOf raw) gid s2 := by
    unfold collectFirstPos
    rw [collectPos_filter_group, h, ← collectPos_filter_group]
  simp only [on_group_message, hb, hc]

/-- C7 witness: a record with nickname "bee" registered only in group g1
does not change the outcome for a message in group g2. -/
theorem C7_witness :
    on_group_message "bee" "g2" [⟨["bee"], "1", "g2"⟩, ⟨["bee"], "2", "g1"⟩]
      = on_group_message "bee" "g2" [⟨["bee"], "1", "g2"⟩] :=
  C7_cross_group_noninterference "bee" "g2"
    [⟨["bee"], "1", "g2"⟩, ⟨["bee"], "2", "g1"⟩] [⟨["bee"], "1", "g2"⟩] (by decide)

/-- C8: a message whose stripped plain text begins with "/" short-circuits
the hook — no lookup result is computed and nothing is emitted, for any
store contents. -/
theorem C8_command_prefix_ignored (raw gid : String) (members : List MemberRecord)
    (h : pyStartsWith (pyStrip raw) "/" = true) :
    on_group_message raw gid members = none := by
  have hm : pyStartsWith (msgOf raw) "/" = true :=
    pyStartsWith_lower_slash (pyStrip raw) h
  simp [on_group_message, hm]

/-- C8 witness: a concrete command message is ignored. -/
theorem C8_witness :
    on_group_message "/member cat" "G" [⟨["cat"], "A", "G"⟩] = none :=
  C8_command_prefix_ignored "/member cat" "G" [⟨["cat"], "A", "G"⟩] (by decide)

/-- C9: a stored nickname that trims to the empty string never matches:
the hook's output is unchanged when all empty-trim entries are deleted
from every record, even though a raw empty-substring search would match
every message at index 0. -/
theorem C9_empty_nickname_skipped (raw gid : String) (members : List MemberRecord) :
    on_group_message raw gid
        (members.map (fun r =>
          { r with nickname := r.nickname.filter (fun x => norm_str x != "") }))
      = on_group_message raw gid members ∧
    ∀ s : String, pyFind s "" = some 0 := by
  constructor
  · have hb := broadcastRecs_map_nicks gid members
      (fun r => r.nickname.filter (fun x => norm_str x != ""))
    have hc : collectFirstPos (msgOf raw) gid
        (members.map (fun r =>
          { r with nickname := r.nickname.filter (fun x => norm_str x != "") }))
        = collectFirstPos (msgOf raw) gid members :=
      collectPos_filter_empty (msgOf raw) gid members []
    simp only [on_group_message, hb, hc]
  · intro s
    have hd : ("" : String).data = [] := rfl
    unfold pyFind
    rw [hd]
    cases hsd : s.data with
    | nil => simp [findSub]
    | cons c t => simp [findSub]

/-- C10: every emitted mention carries a non-empty sid — both the
broadcast branch and the nickname branch skip records with a missing or
empty sid. -/
theorem C10_mentions_nonempty_sids (raw gid : String) (members : List MemberRecord)
    (ch : List Segment) (h : on_group_message raw gid members = some ch) :
    ∀ s ∈ chainSids ch, s ≠ "" := by
  simp only [on_group_message] at h
  split at h
  · simp at h
  split at h
  · simp at h
  split at h
  · split at h
    · simp at h
    · rw [← Option.some.inj h, chainSids_buildChain]
      intro s hs
      rcases List.mem_map.mp hs with ⟨r, hr, rfl⟩
      unfold broadcastRecs at hr
      have hcond := (List.mem_filter.mp hr).2
      have := (Bool.and_eq_true_iff.mp hcond).2
      exact bne_iff_ne.mp this
  · split at h
    · simp at h
    · rw [← Option.some.inj h, chainSids_buildChain]
      intro s hs
      rcases List.mem_map.mp hs with ⟨p, hp, rfl⟩
      exact keys_collectFirstPos_ne (msgOf raw) gid members p.1
        (List.mem_map_of_mem Prod.fst ((sortByIdx_perm _).mem_iff.mp hp))

/-- C10 witness: the theorem applied at a concrete emitted chain. -/
theorem C10_witness :
    on_group_message "cat" "g" [⟨["cat"], "7", "g"⟩]
        = some [Segment.At "7", Segment.Plain (zwsp ++ "\n" ++ "cat")] ∧
      "7" ≠ "" :=
  ⟨by decide,
    C10_mentions_nonempty_sids "cat" "g" [⟨["cat"], "7", "g"⟩]
      [Segment.At "7", Segment.Plain (zwsp ++ "\n" ++ "cat")] (by decide)
      "7" (by decide)⟩

end Nickname
